import Mathlib

/-!
# Focus measures and batch driver of `clarity.cpp`

A shallow embedding of `src/clarity.cpp`: the four focus measures `lapm`, `lapv`,
`teng`, `glvn`, the comparator `sortValue` and the batch driver `main`.

Conventions of the embedding.

* A `cv::Mat` is a size together with a sample function `data row col channel`.
  Samples and every intermediate `CV_64F` value are exact rationals: the kernels
  used by the source have dyadic coefficients, so on decoded 8-bit images the
  filter responses are computed without rounding.  Rounding of the final
  division is not modelled, and the square root inside `meanStdDev` is undone
  exactly by the square the source applies to it.
* A `double` returned by a measure is a `Dbl`: a rational, or one of the IEEE
  special values that a division by zero produces.
* The library primitives the source calls (`sepFilter2D`, `Laplacian`, `Sobel`,
  `mean`, `meanStdDev`, `getGaussianKernel`, `std::sort`) are written out with
  the behaviour of their default arguments, in particular the default border
  mode `BORDER_REFLECT_101`.
-/

namespace Clarity

/-! ## Doubles -/

/-- A value of type `double`: a finite number or an IEEE special value. -/
inductive Dbl where
  | fin (q : ℚ)
  | nan
  | posInf
  | negInf
deriving DecidableEq

/-- The quotient `a / b` of two finite doubles, with the IEEE results for a zero divisor:
`0 / 0` is NaN and `x / 0` is an infinity of the sign of `x`. -/
def Dbl.div (a b : ℚ) : Dbl :=
  if b = 0 then
    if a = 0 then Dbl.nan else if 0 < a then Dbl.posInf else Dbl.negInf
  else Dbl.fin (a / b)

/-- The comparison `x < y` on doubles: false whenever an operand is NaN. -/
def Dbl.lt : Dbl → Dbl → Bool
  | .fin a, .fin b => decide (a < b)
  | .fin _, .posInf => true
  | .negInf, .fin _ => true
  | .negInf, .posInf => true
  | _, _ => false

/-- The comparison `x <= y` on doubles: false whenever an operand is NaN. -/
def Dbl.le : Dbl → Dbl → Bool
  | .fin a, .fin b => decide (a ≤ b)
  | .fin _, .posInf => true
  | .negInf, .fin _ => true
  | .negInf, .posInf => true
  | .negInf, .negInf => true
  | .posInf, .posInf => true
  | _, _ => false

/-- The predicate `std::isnan`. -/
def Dbl.isNaN : Dbl → Bool
  | .nan => true
  | _ => false

/-! ## Images and the filtering primitives -/

/-- A `cv::Mat`: `rows`, `cols`, the number of channels, and the sample at
`(row, col, channel)`.  Only samples with `row < rows` and `col < cols` belong to the image. -/
structure Mat where
  rows : Nat
  cols : Nat
  channels : Nat
  data : Nat → Nat → Nat → ℚ

/-- The predicate `Mat::empty()`: the matrix has no element. -/
def Mat.empty (m : Mat) : Bool := m.rows * m.cols == 0

/-- The function `cv::borderInterpolate(p, len, BORDER_REFLECT_101)`: the index inside
`0 .. len-1` that stands for the (possibly outside) index `p`, mirroring about the first
and last sample without repeating them (`gfedcb|abcdefgh|gfedcba`).  For `len = 1` the
library returns `0`. -/
def borderInterpolate (p : Int) (len : Nat) : Nat :=
  if len ≤ 1 then 0
  else
    let period : Int := 2 * ((len : Int) - 1)
    let m : Int := p % period
    if m < len then m.toNat else (period - m).toNat

/-- Correlation of a 1-D kernel with the signal `f`, the first tap placed at `p`. -/
def corrFrom : List ℚ → (Int → ℚ) → Int → ℚ
  | [], _, _ => 0
  | w :: ws, f, p => w * f p + corrFrom ws f (p + 1)

/-- Correlation of the 1-D kernel `k` with `f` at `p`, the anchor at the kernel centre
`k.length / 2` (the default anchor `Point(-1,-1)`). -/
def corr (k : List ℚ) (f : Int → ℚ) (p : Int) : ℚ :=
  corrFrom k f (p - ((k.length / 2 : Nat) : Int))

/-- Correlation of a 2-D kernel (a list of rows) with `f`, the first kernel row placed at
row `y`, every kernel row centred at column `x`. -/
def corrRowsFrom : List (List ℚ) → (Int → Int → ℚ) → Int → Int → ℚ
  | [], _, _, _ => 0
  | kr :: krs, f, y, x => corr kr (f y) x + corrRowsFrom krs f (y + 1) x

/-- The sample of `src` that the default border mode supplies for the position `(y, x)`,
which may lie outside the image. -/
def Mat.border (src : Mat) (ch : Nat) (y x : Int) : ℚ :=
  src.data (borderInterpolate y src.rows) (borderInterpolate x src.cols) ch

/-- The call `sepFilter2D(src, dst, CV_64F, kernelX, kernelY)`: every row is filtered with
`kernelX`, every column with `kernelY`, each channel on its own. -/
def sepFilter2D (src : Mat) (kernelX kernelY : List ℚ) : Mat :=
  { rows := src.rows, cols := src.cols, channels := src.channels,
    data := fun r c ch => corr kernelY (fun y => corr kernelX (src.border ch y) c) r }

/-- The call `filter2D(src, dst, CV_64F, kernel)` with a 2-D kernel given by its rows. -/
def filter2D (src : Mat) (kernel : List (List ℚ)) : Mat :=
  { rows := src.rows, cols := src.cols, channels := src.channels,
    data := fun r c ch =>
      corrRowsFrom kernel (src.border ch) ((r : Int) - ((kernel.length / 2 : Nat) : Int)) c }

/-- The call `getGaussianKernel(3, -1, CV_64F)`: for size 3 and a non-positive sigma the
library returns the fixed coefficients `0.25, 0.5, 0.25`. -/
def getGaussianKernel3 : List ℚ := [1 / 4, 1 / 2, 1 / 4]

/-- The call `Laplacian(src, lap, CV_64F)`: with the default aperture `ksize = 1` the
library correlates with the kernel `0 1 0 / 1 -4 1 / 0 1 0`. -/
def Laplacian (src : Mat) : Mat :=
  filter2D src [[0, 1, 0], [1, -4, 1], [0, 1, 0]]

/-- One smoothing pass of `getSobelKernels`: entry `j` becomes `ker[j] + ker[j-1]`, the
kernel growing by one tap. -/
def smoothPass (ker : List ℚ) : List ℚ :=
  List.zipWith (fun cur prev => cur + prev) (ker ++ [0]) (0 :: ker)

/-- One differencing pass of `getSobelKernels`: entry `j` becomes `ker[j-1] - ker[j]`, the
kernel growing by one tap. -/
def diffPass (ker : List ℚ) : List ℚ :=
  List.zipWith (fun cur prev => prev - cur) (ker ++ [0]) (0 :: ker)

/-- The kernel `[1]` after `n` smoothing passes: the binomial coefficients of order `n`. -/
def binomialKernel : Nat → List ℚ
  | 0 => [1]
  | n + 1 => smoothPass (binomialKernel n)

/-- The 1-D kernel of `getDerivKernels` for derivative order `order` (0 or 1) and aperture
`ksize`: `ksize - order - 1` smoothing passes followed by `order` differencing passes;
aperture 1 uses `[1]` and the 3-tap difference. -/
def sobelKernel (order ksize : Nat) : List ℚ :=
  if order = 0 then
    if ksize ≤ 1 then [1] else binomialKernel (ksize - 1)
  else
    if ksize ≤ 1 then [-1, 0, 1] else diffPass (binomialKernel (ksize - 2))

/-- The call `Sobel(src, dst, CV_64F, dx, dy, ksize)`: a separable filter with the
derivative kernel of order `dx` along rows and of order `dy` along columns. -/
def Sobel (src : Mat) (dx dy ksize : Nat) : Mat :=
  sepFilter2D src (sobelKernel dx ksize) (sobelKernel dy ksize)

/-- Element-wise absolute value, `abs(m)`. -/
def Mat.abs (m : Mat) : Mat :=
  { m with data := fun r c ch => |m.data r c ch| }

/-- Element-wise sum, `a + b`. -/
def Mat.add (a b : Mat) : Mat :=
  { a with data := fun r c ch => a.data r c ch + b.data r c ch }

/-- Element-wise product, `a.mul(b)`. -/
def Mat.mul (a b : Mat) : Mat :=
  { a with data := fun r c ch => a.data r c ch * b.data r c ch }

/-- Sum of `g` applied to every sample of channel `ch`. -/
def Mat.sumOver (m : Mat) (ch : Nat) (g : ℚ → ℚ) : ℚ :=
  ∑ r in Finset.range m.rows, ∑ c in Finset.range m.cols, g (m.data r c ch)

/-- Number of elements per channel, `Mat::total()`. -/
def Mat.total (m : Mat) : ℚ := ((m.rows * m.cols : Nat) : ℚ)

/-- Element `ch` of `cv::mean(m)`: the mean of the samples of channel `ch`. -/
def mean (m : Mat) (ch : Nat) : ℚ :=
  m.sumOver ch id / m.total

/-- Element `ch` of the two outputs of `cv::meanStdDev(m, mu, sigma)`.  The first component
is the mean; the library computes the standard deviation as the square root of
`max (sqsum / N - mean^2) 0`, and the second component is that radicand, which is the value
of `sigma.val[ch] * sigma.val[ch]`, the only way the source uses `sigma`. -/
def meanStdDev (m : Mat) (ch : Nat) : ℚ × ℚ :=
  let mu := m.sumOver ch id / m.total
  let sq := m.sumOver ch (fun x => x * x) / m.total
  (mu, max (sq - mu * mu) 0)

/-! ## The four focus measures -/

/-- The function `lapm` of the source: the mean over channel 0 of `abs(Lx) + abs(Ly)`. -/
def lapm (src : Mat) : Dbl :=
  let M : List ℚ := [-1, 2, -1]
  let G : List ℚ := getGaussianKernel3
  let Lx := sepFilter2D src M G
  let Ly := sepFilter2D src G M
  let FM := Mat.add (Mat.abs Lx) (Mat.abs Ly)
  Dbl.fin (mean FM 0)

/-- The function `lapv` of the source: `sigma.val[0] * sigma.val[0]` for the Laplacian of
the image. -/
def lapv (src : Mat) : Dbl :=
  let lap := Laplacian src
  let sigmaSq := (meanStdDev lap 0).2
  Dbl.fin sigmaSq

/-- The function `teng` of the source: the mean over channel 0 of `Gx.mul(Gx) + Gy.mul(Gy)`. -/
def teng (src : Mat) (ksize : Nat) : Dbl :=
  let Gx := Sobel src 1 0 ksize
  let Gy := Sobel src 0 1 ksize
  let FM := Mat.add (Mat.mul Gx Gx) (Mat.mul Gy Gy)
  Dbl.fin (mean FM 0)

/-- The function `glvn` of the source: `(sigma.val[0] * sigma.val[0]) / mu.val[0]` for the
image itself, with no guard on the divisor. -/
def glvn (src : Mat) : Dbl :=
  let ms := meanStdDev src 0
  Dbl.div ms.2 ms.1

/-! ## Ranking -/

/-- A ranked entry: the path of an image and one of its scores. -/
abbrev Entry := String × Dbl

/-- The comparator `sortValue` of the source: compares the scores with `<`. -/
def sortValue (a b : Entry) : Bool := Dbl.lt a.2 b.2

/-- Insertion of `x` into `l` in front of the first element that `comp` places after `x`. -/
def insertBy (comp : Entry → Entry → Bool) (x : Entry) : List Entry → List Entry
  | [] => [x]
  | y :: ys => if comp x y then x :: y :: ys else y :: insertBy comp x ys

/-- The call `std::sort(begin, end, comp)`, as an insertion sort driven by the comparator.
The library fixes the result only up to the order of entries that `comp` does not
separate; no statement below depends on that order. -/
def stdSort (comp : Entry → Entry → Bool) : List Entry → List Entry
  | [] => []
  | x :: xs => insertBy comp x (stdSort comp xs)

/-- The sequence is ascending by score: `score[i] <= score[i+1]` for every adjacent pair. -/
def ascending (t : List Entry) : Prop :=
  ∀ (i : Nat) (h : i + 1 < t.length), Dbl.le (t[i]).2 (t[i + 1]).2 = true

/-! ## The batch driver -/

/-- One entry of the directory iteration: its path and the matrix `imread` returns for it
(an empty matrix when the entry cannot be decoded). -/
structure DirEntry where
  path : String
  img : Mat

/-- One line written to standard output. -/
inductive Line where
  | path (p : String)
  | couldNotRead (p : String)
  | score (label : String) (v : Dbl)
  | blank
  | heading
  | ranked (p : String) (label : String) (v : Dbl)

/-- The four accumulator sequences of `main`. -/
structure Tables where
  table_ml : List Entry
  table_vl : List Entry
  table_t : List Entry
  table_nv : List Entry

/-- What a run of `main` produces: the exit status and the lines printed. -/
structure Result where
  exitCode : Int
  out : List Line

/-- The lines printed for one image after its four scores are computed. -/
def scoreLines (ml vl t nv : Dbl) : List Line :=
  [Line.score "Lapm :" ml, Line.score "Lapv :" vl, Line.score "Teng :" t,
   Line.score "Glvn :" nv, Line.blank]

/-- The four `push_back` calls of the loop body. -/
def Tables.push (tb : Tables) (p : String) (ml vl t nv : Dbl) : Tables :=
  { table_ml := tb.table_ml ++ [(p, ml)],
    table_vl := tb.table_vl ++ [(p, vl)],
    table_t := tb.table_t ++ [(p, t)],
    table_nv := tb.table_nv ++ [(p, nv)] }

/-- The `for` loop of `main` over the directory entries, started with the tables `tb` and
the output `out`.  It ends with `Except.error` carrying the output when an entry does not
decode (the `return 1` inside the loop), and otherwise with the filled tables. -/
def loop : List DirEntry → Tables → List Line → Except (List Line) (Tables × List Line)
  | [], tb, out => Except.ok (tb, out)
  | e :: es, tb, out =>
    let out1 := out ++ [Line.path e.path]
    if e.img.empty then
      Except.error (out1 ++ [Line.couldNotRead e.path])
    else
      let ml := lapm e.img
      let vl := lapv e.img
      let t := teng e.img 3
      let nv := glvn e.img
      loop es (tb.push e.path ml vl t nv) (out1 ++ scoreLines ml vl t nv)

/-- The four `sort` calls of `main`. -/
def Tables.sortStep (tb : Tables) : Tables :=
  { table_ml := stdSort sortValue tb.table_ml,
    table_vl := stdSort sortValue tb.table_vl,
    table_t := stdSort sortValue tb.table_t,
    table_nv := stdSort sortValue tb.table_nv }

/-- The lines of one row of the final report, from the four entries read at one index. -/
def rowLines (a b c d : Entry) : List Line :=
  [Line.ranked a.1 "(lapm)" a.2, Line.ranked b.1 "(lapv)" b.2,
   Line.ranked c.1 "(teng)" c.2, Line.ranked d.1 "(glnv)" d.2, Line.blank]

/-- The body of the print loop at index `i`: reads element `i` of each of the four tables.
The result is `none` when one of the reads is out of bounds. -/
def printRow (tb : Tables) (i : Nat) : Option (List Line) :=
  match tb.table_ml[i]?, tb.table_vl[i]?, tb.table_t[i]?, tb.table_nv[i]? with
  | some a, some b, some c, some d => some (rowLines a b c d)
  | _, _, _, _ => none

/-- The print loop `for (i = ..; i < size(table_ml); i++)`, with `n` iterations left. -/
def printLoop (tb : Tables) : Nat → Nat → Option (List Line)
  | 0, _ => some []
  | n + 1, i =>
    match printRow tb i, printLoop tb n (i + 1) with
    | some row, some rest => some (row ++ rest)
    | _, _ => none

/-- The function `main` of the source, run on the entries the directory iteration yields.
The result is `none` when the print loop reads a table out of bounds. -/
def main (dir : List DirEntry) : Option Result :=
  match loop dir ⟨[], [], [], []⟩ [] with
  | Except.error out => some ⟨1, out⟩
  | Except.ok (tb, out) =>
    let sorted := tb.sortStep
    match printLoop sorted sorted.table_ml.length 0 with
    | some rows => some ⟨0, out ++ [Line.heading] ++ rows⟩
    | none => none

/-- The tables after the loop has scored the given entries, in order. -/
def tablesOf (dir : List DirEntry) : Tables :=
  { table_ml := dir.map fun e => (e.path, lapm e.img),
    table_vl := dir.map fun e => (e.path, lapv e.img),
    table_t := dir.map fun e => (e.path, teng e.img 3),
    table_nv := dir.map fun e => (e.path, glvn e.img) }

/-- The lines the loop prints while scoring the given entries. -/
def progressLines (dir : List DirEntry) : List Line :=
  (dir.map fun e =>
    Line.path e.path :: scoreLines (lapm e.img) (lapv e.img) (teng e.img 3) (glvn e.img)).flatten

/-! ## Images used in the scenarios -/

/-- An image as `imread(.., IMREAD_COLOR)` returns it on success: three channels of 8-bit
samples and at least one pixel. -/
def Mat.isDecoded8U (m : Mat) : Prop :=
  m.channels = 3 ∧ 0 < m.rows ∧ 0 < m.cols ∧
    ∀ r c ch, ∃ n : Nat, n ≤ 255 ∧ m.data r c ch = (n : ℚ)

/-- The image of the given size whose samples all equal `v`. -/
def constImage (rows cols : Nat) (v : ℚ) : Mat :=
  ⟨rows, cols, 3, fun _ _ _ => v⟩

/-- The 10x10 checkerboard: value `a` where `row + col` is even and `b` where it is odd,
the same in the three channels. -/
def checkerboard (a b : ℚ) : Mat :=
  ⟨10, 10, 3, fun r c _ => if (r + c) % 2 = 0 then a else b⟩

/-- A single-row image with the given samples (zero beyond them), in one channel. -/
def rowImage (xs : List ℚ) : Mat :=
  ⟨1, xs.length, 1, fun _ c _ => xs.getD c 0⟩

/-- The image smoothed with the separable kernel `k` in both directions. -/
def smooth (src : Mat) (k : List ℚ) : Mat := sepFilter2D src k k


/-- The pure-black 10x10 image. -/
def blackImage : Mat := constImage 10 10 0

/-- The solid-gray 10x10 image of level 128. -/
def grayImage : Mat := constImage 10 10 128

/-- A directory holding the pure-black image and the solid-gray image. -/
def blackAndGray : List DirEntry :=
  [⟨"black.png", blackImage⟩, ⟨"gray.png", grayImage⟩]

/-- A directory of three entries whose second entry does not decode. -/
def brokenSecond : List DirEntry :=
  [⟨"a.png", grayImage⟩, ⟨"notes.txt", ⟨0, 0, 3, fun _ _ _ => 0⟩⟩, ⟨"c.png", blackImage⟩]

/-- A 2x2 colour image whose channel 0 is a ramp and whose other channels equal `other`. -/
def rampImage (other : ℚ) : Mat :=
  ⟨2, 2, 3, fun r c ch => if ch = 0 then ((r + 2 * c : Nat) : ℚ) else other⟩

/-- A directory of two entries that both decode. -/
def grayAndRamp : List DirEntry :=
  [⟨"gray.png", grayImage⟩, ⟨"ramp.png", rampImage 7⟩]

/-- A directory holding the solid-gray image and the checkerboard of black and white. -/
def grayAndChecker : List DirEntry :=
  [⟨"gray.png", grayImage⟩, ⟨"checker.png", checkerboard 0 255⟩]

/-- A one-row image rising smoothly from 0 to 450. -/
def smoothRamp : Mat :=
  rowImage [0, 4, 20, 45, 78, 116, 158, 202, 248, 292, 334, 372, 405, 430, 446, 450]

theorem borderInterpolate_lt (p : Int) (len : Nat) (h : 0 < len) :
    borderInterpolate p len < len := by
  unfold borderInterpolate
  by_cases h1 : len ≤ 1
  · simp [h1]; exact h
  · simp only [h1, if_false]
    have hpos : (0 : Int) < 2 * ((len : Int) - 1) := by omega
    have hm0 := Int.emod_nonneg p (ne_of_gt hpos)
    have hm1 := Int.emod_lt_of_pos p hpos
    split_ifs with h2
    · omega
    · omega

theorem corrFrom_const (k : List ℚ) (v : ℚ) (p : Int) :
    corrFrom k (fun _ => v) p = k.sum * v := by
  induction k generalizing p with
  | nil => simp [corrFrom]
  | cons w ws ih => simp [corrFrom, ih, add_mul]

theorem border_const (src : Mat) (v : ℚ) (ch : Nat) (hr : 0 < src.rows) (hc : 0 < src.cols)
    (h : ∀ r c, r < src.rows → c < src.cols → src.data r c ch = v) :
    src.border ch = fun _ _ => v := by
  funext y x
  exact h _ _ (borderInterpolate_lt y _ hr) (borderInterpolate_lt x _ hc)

theorem border_congr (A B : Mat) (hrows : A.rows = B.rows) (hcols : A.cols = B.cols)
    (hr : 0 < A.rows) (hc : 0 < A.cols)
    (h : ∀ r c, r < A.rows → c < A.cols → A.data r c 0 = B.data r c 0) :
    A.border 0 = B.border 0 := by
  funext y x
  unfold Mat.border
  rw [← hrows, ← hcols]
  exact h _ _ (borderInterpolate_lt y _ hr) (borderInterpolate_lt x _ hc)

theorem sumOver_congr (A B : Mat) (ch : Nat) (g : ℚ → ℚ) (hrows : A.rows = B.rows)
    (hcols : A.cols = B.cols)
    (h : ∀ r c, r < A.rows → c < A.cols → A.data r c ch = B.data r c ch) :
    A.sumOver ch g = B.sumOver ch g := by
  unfold Mat.sumOver
  rw [← hrows, ← hcols]
  refine Finset.sum_congr rfl (fun r hr => Finset.sum_congr rfl (fun c hc => ?_))
  rw [h r c (Finset.mem_range.mp hr) (Finset.mem_range.mp hc)]

theorem sumOver_eq_zero (m : Mat) (ch : Nat) (g : ℚ → ℚ)
    (h : ∀ r c, r < m.rows → c < m.cols → g (m.data r c ch) = 0) :
    m.sumOver ch g = 0 := by
  unfold Mat.sumOver
  refine Finset.sum_eq_zero (fun r hr => Finset.sum_eq_zero (fun c hc => ?_))
  exact h r c (Finset.mem_range.mp hr) (Finset.mem_range.mp hc)

theorem sumOver_nonneg (m : Mat) (ch : Nat) (g : ℚ → ℚ)
    (h : ∀ r c, 0 ≤ g (m.data r c ch)) : 0 ≤ m.sumOver ch g := by
  unfold Mat.sumOver
  exact Finset.sum_nonneg (fun r _ => Finset.sum_nonneg (fun c _ => h r c))

theorem total_nonneg (m : Mat) : 0 ≤ m.total := by
  unfold Mat.total
  exact Nat.cast_nonneg _

theorem sobelKernel_one_three : sobelKernel 1 3 = [-1, 0, 1] := by decide!

theorem sobelKernel_zero_three : sobelKernel 0 3 = [1, 2, 1] := by decide!


theorem mean_nonneg (m : Mat) (ch : Nat) (h : ∀ r c, 0 ≤ m.data r c ch) : 0 ≤ mean m ch := by
  unfold mean
  exact div_nonneg (sumOver_nonneg m ch id h) (total_nonneg m)

theorem mean_eq_zero (m : Mat) (ch : Nat)
    (h : ∀ r c, r < m.rows → c < m.cols → m.data r c ch = 0) : mean m ch = 0 := by
  unfold mean
  rw [sumOver_eq_zero m ch id h, zero_div]

theorem mean_congr (A B : Mat) (ch : Nat) (hrows : A.rows = B.rows) (hcols : A.cols = B.cols)
    (h : ∀ r c, r < A.rows → c < A.cols → A.data r c ch = B.data r c ch) :
    mean A ch = mean B ch := by
  unfold mean Mat.total
  rw [sumOver_congr A B ch id hrows hcols h, hrows, hcols]

theorem meanStdDev_congr (A B : Mat) (ch : Nat) (hrows : A.rows = B.rows)
    (hcols : A.cols = B.cols)
    (h : ∀ r c, r < A.rows → c < A.cols → A.data r c ch = B.data r c ch) :
    meanStdDev A ch = meanStdDev B ch := by
  unfold meanStdDev Mat.total
  rw [sumOver_congr A B ch id hrows hcols h,
    sumOver_congr A B ch (fun x => x * x) hrows hcols h, hrows, hcols]

theorem meanStdDev_zero (m : Mat) (ch : Nat)
    (h : ∀ r c, r < m.rows → c < m.cols → m.data r c ch = 0) : meanStdDev m ch = (0, 0) := by
  unfold meanStdDev
  rw [sumOver_eq_zero m ch id h,
    sumOver_eq_zero m ch (fun x => x * x) (fun r c hr hc => by simp [h r c hr hc])]
  simp

theorem meanStdDev_snd_nonneg (m : Mat) (ch : Nat) : 0 ≤ (meanStdDev m ch).2 := by
  unfold meanStdDev
  exact le_max_right _ _

/-! ## Constant images -/

theorem sepFilter2D_const (src : Mat) (v : ℚ) (ch : Nat) (kx ky : List ℚ)
    (h : ∀ r c, r < src.rows → c < src.cols → src.data r c ch = v)
    (r c : Nat) (hr : r < src.rows) (hc : c < src.cols) :
    (sepFilter2D src kx ky).data r c ch = ky.sum * (kx.sum * v) := by
  have hb := border_const src v ch (Nat.lt_of_le_of_lt (Nat.zero_le r) hr)
    (Nat.lt_of_le_of_lt (Nat.zero_le c) hc) h
  simp only [sepFilter2D, hb, corr, corrFrom_const]

theorem Laplacian_const (src : Mat) (v : ℚ) (ch : Nat)
    (h : ∀ r c, r < src.rows → c < src.cols → src.data r c ch = v)
    (r c : Nat) (hr : r < src.rows) (hc : c < src.cols) :
    (Laplacian src).data r c ch = 0 := by
  have hb := border_const src v ch (Nat.lt_of_le_of_lt (Nat.zero_le r) hr)
    (Nat.lt_of_le_of_lt (Nat.zero_le c) hc) h
  simp only [Laplacian, filter2D, hb, corrRowsFrom, corr, corrFrom]
  ring

theorem lapm_const (src : Mat) (v : ℚ)
    (h : ∀ r c, r < src.rows → c < src.cols → src.data r c 0 = v) : lapm src = Dbl.fin 0 := by
  unfold lapm
  simp only
  congr 1
  apply mean_eq_zero
  intro r c hr hc
  have hx := sepFilter2D_const src v 0 [-1, 2, -1] getGaussianKernel3 h r c hr hc
  have hy := sepFilter2D_const src v 0 getGaussianKernel3 [-1, 2, -1] h r c hr hc
  simp only [Mat.add, Mat.abs, hx, hy]
  norm_num [getGaussianKernel3]

theorem lapv_const (src : Mat) (v : ℚ)
    (h : ∀ r c, r < src.rows → c < src.cols → src.data r c 0 = v) : lapv src = Dbl.fin 0 := by
  unfold lapv
  simp only
  rw [meanStdDev_zero (Laplacian src) 0 (fun r c hr hc => Laplacian_const src v 0 h r c hr hc)]

theorem teng_const (src : Mat) (v : ℚ)
    (h : ∀ r c, r < src.rows → c < src.cols → src.data r c 0 = v) :
    teng src 3 = Dbl.fin 0 := by
  unfold teng
  simp only
  congr 1
  apply mean_eq_zero
  intro r c hr hc
  have hx := sepFilter2D_const src v 0 (sobelKernel 1 3) (sobelKernel 0 3) h r c hr hc
  have hy := sepFilter2D_const src v 0 (sobelKernel 0 3) (sobelKernel 1 3) h r c hr hc
  rw [sobelKernel_one_three, sobelKernel_zero_three] at hx hy
  simp only [Mat.add, Mat.mul, Sobel, sobelKernel_one_three, sobelKernel_zero_three, hx, hy]
  norm_num

/-! ## Dependence on channel 0 only -/

theorem sepFilter2D_congr (A B : Mat) (kx ky : List ℚ) (hrows : A.rows = B.rows)
    (hcols : A.cols = B.cols)
    (h : ∀ r c, r < A.rows → c < A.cols → A.data r c 0 = B.data r c 0)
    (r c : Nat) (hr : r < A.rows) (hc : c < A.cols) :
    (sepFilter2D A kx ky).data r c 0 = (sepFilter2D B kx ky).data r c 0 := by
  have hb := border_congr A B hrows hcols (Nat.lt_of_le_of_lt (Nat.zero_le r) hr)
    (Nat.lt_of_le_of_lt (Nat.zero_le c) hc) h
  simp only [sepFilter2D, hb]

theorem Laplacian_congr (A B : Mat) (hrows : A.rows = B.rows) (hcols : A.cols = B.cols)
    (h : ∀ r c, r < A.rows → c < A.cols → A.data r c 0 = B.data r c 0)
    (r c : Nat) (hr : r < A.rows) (hc : c < A.cols) :
    (Laplacian A).data r c 0 = (Laplacian B).data r c 0 := by
  have hb := border_congr A B hrows hcols (Nat.lt_of_le_of_lt (Nat.zero_le r) hr)
    (Nat.lt_of_le_of_lt (Nat.zero_le c) hc) h
  simp only [Laplacian, filter2D, hb]

theorem lapm_congr (A B : Mat) (hrows : A.rows = B.rows) (hcols : A.cols = B.cols)
    (h : ∀ r c, r < A.rows → c < A.cols → A.data r c 0 = B.data r c 0) :
    lapm A = lapm B := by
  unfold lapm
  simp only
  congr 1
  refine mean_congr _ _ 0 (show _ = _ from hrows) (show _ = _ from hcols) ?_
  intro r c hr hc
  have hx := sepFilter2D_congr A B [-1, 2, -1] getGaussianKernel3 hrows hcols h r c hr hc
  have hy := sepFilter2D_congr A B getGaussianKernel3 [-1, 2, -1] hrows hcols h r c hr hc
  simp only [Mat.add, Mat.abs, hx, hy]

theorem lapv_congr (A B : Mat) (hrows : A.rows = B.rows) (hcols : A.cols = B.cols)
    (h : ∀ r c, r < A.rows → c < A.cols → A.data r c 0 = B.data r c 0) :
    lapv A = lapv B := by
  unfold lapv
  simp only
  rw [meanStdDev_congr (Laplacian A) (Laplacian B) 0 hrows hcols
    (fun r c hr hc => Laplacian_congr A B hrows hcols h r c hr hc)]

theorem teng_congr (A B : Mat) (ksize : Nat) (hrows : A.rows = B.rows)
    (hcols : A.cols = B.cols)
    (h : ∀ r c, r < A.rows → c < A.cols → A.data r c 0 = B.data r c 0) :
    teng A ksize = teng B ksize := by
  unfold teng
  simp only
  congr 1
  refine mean_congr _ _ 0 (show _ = _ from hrows) (show _ = _ from hcols) ?_
  intro r c hr hc
  have hx := sepFilter2D_congr A B (sobelKernel 1 ksize) (sobelKernel 0 ksize)
    hrows hcols h r c hr hc
  have hy := sepFilter2D_congr A B (sobelKernel 0 ksize) (sobelKernel 1 ksize)
    hrows hcols h r c hr hc
  simp only [Mat.add, Mat.mul, Sobel, hx, hy]

theorem glvn_congr (A B : Mat) (hrows : A.rows = B.rows) (hcols : A.cols = B.cols)
    (h : ∀ r c, r < A.rows → c < A.cols → A.data r c 0 = B.data r c 0) :
    glvn A = glvn B := by
  unfold glvn
  simp only
  rw [meanStdDev_congr A B 0 hrows hcols h]

/-! ## Comparison of doubles and sorting -/

theorem dbl_le_of_lt (a b : Dbl) (h : Dbl.lt a b = true) : Dbl.le a b = true := by
  cases a <;> cases b <;> simp_all [Dbl.lt, Dbl.le]
  exact h.le

theorem dbl_le_of_not_lt (a b : Dbl) (ha : a.isNaN = false) (hb : b.isNaN = false)
    (h : Dbl.lt a b = false) : Dbl.le b a = true := by
  cases a <;> cases b <;> simp_all [Dbl.lt, Dbl.le, Dbl.isNaN]

theorem dbl_le_trans (a b c : Dbl) (hab : Dbl.le a b = true) (hbc : Dbl.le b c = true) :
    Dbl.le a c = true := by
  cases a <;> cases b <;> cases c <;> simp_all [Dbl.le]
  exact hab.trans hbc

theorem insertBy_perm (comp : Entry → Entry → Bool) (x : Entry) (l : List Entry) :
    (insertBy comp x l).Perm (x :: l) := by
  induction l with
  | nil => exact List.Perm.refl _
  | cons y ys ih =>
    unfold insertBy
    split_ifs
    · exact List.Perm.refl _
    · exact (List.Perm.cons y ih).trans (List.Perm.swap x y ys)

theorem stdSort_perm (comp : Entry → Entry → Bool) (l : List Entry) :
    (stdSort comp l).Perm l := by
  induction l with
  | nil => exact List.Perm.refl _
  | cons x xs ih => exact (insertBy_perm comp x _).trans (List.Perm.cons x ih)

theorem stdSort_length (comp : Entry → Entry → Bool) (l : List Entry) :
    (stdSort comp l).length = l.length :=
  (stdSort_perm comp l).length_eq

theorem insertBy_sorted (x : Entry) (l : List Entry) (hx : x.2.isNaN = false)
    (hl : ∀ y ∈ l, y.2.isNaN = false)
    (hs : l.Pairwise (fun a b => Dbl.le a.2 b.2 = true)) :
    (insertBy sortValue x l).Pairwise (fun a b => Dbl.le a.2 b.2 = true) := by
  induction l with
  | nil => simp [insertBy]
  | cons y ys ih =>
    have hy : y.2.isNaN = false := hl y (List.mem_cons_self y ys)
    have hys : ∀ z ∈ ys, z.2.isNaN = false := fun z hz => hl z (List.mem_cons_of_mem y hz)
    rw [List.pairwise_cons] at hs
    unfold insertBy
    by_cases hc : sortValue x y = true
    · rw [if_pos hc]
      have hxy : Dbl.le x.2 y.2 = true := dbl_le_of_lt _ _ hc
      refine List.pairwise_cons.mpr ⟨?_, List.pairwise_cons.mpr hs⟩
      intro z hz
      rcases List.mem_cons.mp hz with rfl | hz
      · exact hxy
      · exact dbl_le_trans _ _ _ hxy (hs.1 z hz)
    · rw [if_neg hc]
      have hyx : Dbl.le y.2 x.2 = true :=
        dbl_le_of_not_lt _ _ hx hy (by simpa [sortValue] using hc)
      refine List.pairwise_cons.mpr ⟨?_, ih hys hs.2⟩
      intro z hz
      rcases List.mem_cons.mp ((insertBy_perm sortValue x ys).mem_iff.mp hz) with rfl | hz
      · exact hyx
      · exact hs.1 z hz

theorem stdSort_sorted (l : List Entry) (hl : ∀ y ∈ l, y.2.isNaN = false) :
    (stdSort sortValue l).Pairwise (fun a b => Dbl.le a.2 b.2 = true) := by
  induction l with
  | nil => simp [stdSort]
  | cons x xs ih =>
    have hxs : ∀ z ∈ xs, z.2.isNaN = false := fun z hz => hl z (List.mem_cons_of_mem x hz)
    refine insertBy_sorted x _ (hl x (List.mem_cons_self x xs)) ?_ (ih hxs)
    intro z hz
    exact hxs z ((stdSort_perm sortValue xs).mem_iff.mp hz)

theorem ascending_of_pairwise (t : List Entry)
    (h : t.Pairwise (fun a b => Dbl.le a.2 b.2 = true)) : ascending t := by
  intro i hi
  exact (List.pairwise_iff_getElem.mp h) i (i + 1) (by omega) hi (by omega)

theorem stdSort_ascending (l : List Entry) (hl : ∀ y ∈ l, y.2.isNaN = false) :
    ascending (stdSort sortValue l) :=
  ascending_of_pairwise _ (stdSort_sorted l hl)

/-! ## The loop of the driver -/

theorem progressLines_cons (e : DirEntry) (es : List DirEntry) :
    progressLines (e :: es) =
      (Line.path e.path :: scoreLines (lapm e.img) (lapv e.img) (teng e.img 3) (glvn e.img))
        ++ progressLines es := by
  simp [progressLines]

theorem loop_ok (dir : List DirEntry) (tb : Tables) (out : List Line)
    (h : ∀ e ∈ dir, e.img.empty = false) :
    loop dir tb out = Except.ok
      (⟨tb.table_ml ++ (tablesOf dir).table_ml, tb.table_vl ++ (tablesOf dir).table_vl,
        tb.table_t ++ (tablesOf dir).table_t, tb.table_nv ++ (tablesOf dir).table_nv⟩,
       out ++ progressLines dir) := by
  induction dir generalizing tb out with
  | nil => simp [loop, tablesOf, progressLines]
  | cons e es ih =>
    have he : e.img.empty = false := h e (List.mem_cons_self e es)
    have hes : ∀ x ∈ es, x.img.empty = false := fun x hx => h x (List.mem_cons_of_mem e hx)
    rw [loop]
    simp only [he, Bool.false_eq_true, if_false]
    rw [ih _ _ hes, progressLines_cons]
    simp [Tables.push, tablesOf]

theorem loop_error (pre : List DirEntry) (e : DirEntry) (post : List DirEntry) (tb : Tables)
    (out : List Line) (hpre : ∀ x ∈ pre, x.img.empty = false) (he : e.img.empty = true) :
    loop (pre ++ e :: post) tb out =
      Except.error (out ++ progressLines pre ++ [Line.path e.path, Line.couldNotRead e.path]) := by
  induction pre generalizing tb out with
  | nil => simp [loop, he, progressLines]
  | cons x xs ih =>
    have hx : x.img.empty = false := hpre x (List.mem_cons_self x xs)
    have hxs : ∀ y ∈ xs, y.img.empty = false := fun y hy => hpre y (List.mem_cons_of_mem x hy)
    rw [List.cons_append, loop]
    simp only [hx, Bool.false_eq_true, if_false]
    rw [ih _ _ hxs, progressLines_cons]
    simp

theorem exists_first_empty (dir : List DirEntry)
    (h : dir.any (fun e => e.img.empty) = true) :
    ∃ pre e post, dir = pre ++ e :: post ∧ (∀ x ∈ pre, x.img.empty = false) ∧
      e.img.empty = true := by
  induction dir with
  | nil => simp at h
  | cons x xs ih =>
    by_cases hx : x.img.empty = true
    · exact ⟨[], x, xs, rfl, by simp, hx⟩
    · have hxs : xs.any (fun e => e.img.empty) = true := by
        simpa [List.any_cons, hx] using h
      obtain ⟨pre, e, post, hd, hp, he⟩ := ih hxs
      refine ⟨x :: pre, e, post, by simp [hd], ?_, he⟩
      intro y hy
      rcases List.mem_cons.mp hy with rfl | hy
      · simpa using hx
      · exact hp y hy

theorem all_decode_of_not_any (dir : List DirEntry)
    (h : dir.any (fun e => e.img.empty) = false) : ∀ e ∈ dir, e.img.empty = false := by
  intro e he
  by_contra hne
  have : dir.any (fun e => e.img.empty) = true :=
    List.any_eq_true.mpr ⟨e, he, by simpa using hne⟩
  rw [h] at this
  exact Bool.false_ne_true this

/-! ## The print loop -/

theorem printLoop_spec (tb : Tables) (L : Nat) (h1 : tb.table_ml.length = L)
    (h2 : tb.table_vl.length = L) (h3 : tb.table_t.length = L) (h4 : tb.table_nv.length = L)
    (n i : Nat) (hni : i + n = L) :
    ∃ report : List (List Line), report.length = n ∧
      printLoop tb n i = some report.flatten ∧
      ∀ j, j < n → ∃ a b c d, tb.table_ml[i + j]? = some a ∧ tb.table_vl[i + j]? = some b ∧
        tb.table_t[i + j]? = some c ∧ tb.table_nv[i + j]? = some d ∧
        report[j]? = some (rowLines a b c d) := by
  induction n generalizing i with
  | zero => exact ⟨[], rfl, rfl, fun j hj => absurd hj (Nat.not_lt_zero j)⟩
  | succ n ih =>
    obtain ⟨report, hlen, hpl, hrows⟩ := ih (i + 1) (by omega)
    have ha : tb.table_ml[i]? = some (tb.table_ml[i]) := List.getElem?_eq_getElem (by omega)
    have hb : tb.table_vl[i]? = some (tb.table_vl[i]) := List.getElem?_eq_getElem (by omega)
    have hc : tb.table_t[i]? = some (tb.table_t[i]) := List.getElem?_eq_getElem (by omega)
    have hd : tb.table_nv[i]? = some (tb.table_nv[i]) := List.getElem?_eq_getElem (by omega)
    refine ⟨rowLines tb.table_ml[i] tb.table_vl[i] tb.table_t[i] tb.table_nv[i] :: report,
      by simp [hlen], ?_, ?_⟩
    · simp [printLoop, printRow, ha, hb, hc, hd, hpl]
    · intro j hj
      cases j with
      | zero => exact ⟨_, _, _, _, ha, hb, hc, hd, by simp⟩
      | succ j =>
        obtain ⟨a, b, c, d, ea, eb, ec, ed, er⟩ := hrows j (by omega)
        have hidx : i + (j + 1) = i + 1 + j := by omega
        rw [hidx]
        exact ⟨a, b, c, d, ea, eb, ec, ed, by simpa using er⟩

/-! ## Runs of the driver -/

theorem tablesOf_lengths (dir : List DirEntry) :
    (tablesOf dir).sortStep.table_ml.length = dir.length ∧
    (tablesOf dir).sortStep.table_vl.length = dir.length ∧
    (tablesOf dir).sortStep.table_t.length = dir.length ∧
    (tablesOf dir).sortStep.table_nv.length = dir.length := by
  simp [Tables.sortStep, tablesOf, stdSort_length]

theorem loop_all_decode (dir : List DirEntry) (h : ∀ e ∈ dir, e.img.empty = false) :
    loop dir ⟨[], [], [], []⟩ [] = Except.ok (tablesOf dir, progressLines dir) := by
  rw [loop_ok dir _ _ h]
  simp [tablesOf]

theorem main_all_decode (dir : List DirEntry) (h : ∀ e ∈ dir, e.img.empty = false) :
    ∃ report : List (List Line), report.length = dir.length ∧
      main dir = some ⟨0, progressLines dir ++ [Line.heading] ++ report.flatten⟩ ∧
      ∀ i, i < dir.length → ∃ a b c d,
        (tablesOf dir).sortStep.table_ml[i]? = some a ∧
        (tablesOf dir).sortStep.table_vl[i]? = some b ∧
        (tablesOf dir).sortStep.table_t[i]? = some c ∧
        (tablesOf dir).sortStep.table_nv[i]? = some d ∧
        report[i]? = some (rowLines a b c d) := by
  obtain ⟨h1, h2, h3, h4⟩ := tablesOf_lengths dir
  obtain ⟨report, hlen, hpl, hrows⟩ :=
    printLoop_spec (tablesOf dir).sortStep dir.length h1 h2 h3 h4 dir.length 0 (by omega)
  refine ⟨report, hlen, ?_, ?_⟩
  · unfold main
    rw [loop_all_decode dir h]
    simp only [h1, hpl]
  · intro i hi
    simpa using hrows i hi

theorem main_first_failure (pre : List DirEntry) (e : DirEntry) (post : List DirEntry)
    (hpre : ∀ x ∈ pre, x.img.empty = false) (he : e.img.empty = true) :
    main (pre ++ e :: post) =
      some ⟨1, progressLines pre ++ [Line.path e.path, Line.couldNotRead e.path]⟩ := by
  unfold main
  rw [loop_error pre e post _ _ hpre he]
  simp

/-! ## Non-negativity -/

/-- C5: for every image (its samples are finite numbers), `lapm(img) >= 0`,
`lapv(img) >= 0` and `teng(img, 3) >= 0`. -/
theorem measures_nonneg (src : Mat) :
    Dbl.le (Dbl.fin 0) (lapm src) = true ∧ Dbl.le (Dbl.fin 0) (lapv src) = true ∧
      Dbl.le (Dbl.fin 0) (teng src 3) = true := by
  refine ⟨?_, ?_, ?_⟩
  · simp only [lapm, Dbl.le, decide_eq_true_eq]
    apply mean_nonneg
    intro r c
    simp only [Mat.add, Mat.abs]
    exact add_nonneg (abs_nonneg _) (abs_nonneg _)
  · simp only [lapv, Dbl.le, decide_eq_true_eq]
    exact meanStdDev_snd_nonneg _ _
  · simp only [teng, Dbl.le, decide_eq_true_eq]
    apply mean_nonneg
    intro r c
    simp only [Mat.add, Mat.mul]
    exact add_nonneg (mul_self_nonneg _) (mul_self_nonneg _)

/-! ## Constant images -/

/-- C2: for every image whose samples all equal one constant value `v`, of any width and
height, `lapm(img) = 0`, `lapv(img) = 0` and `teng(img, 3) = 0`. -/
theorem constant_image_scores_zero (src : Mat) (v : ℚ)
    (h : ∀ r c ch, r < src.rows → c < src.cols → src.data r c ch = v) :
    lapm src = Dbl.fin 0 ∧ lapv src = Dbl.fin 0 ∧ teng src 3 = Dbl.fin 0 :=
  ⟨lapm_const src v (fun r c => h r c 0), lapv_const src v (fun r c => h r c 0),
    teng_const src v (fun r c => h r c 0)⟩

/-- Witness for C2: the 4x6 image with every sample equal to 200. -/
theorem constant_image_scores_zero_witness :
    (∀ r c ch, r < (constImage 4 6 200).rows → c < (constImage 4 6 200).cols →
        (constImage 4 6 200).data r c ch = 200) ∧
      lapm (constImage 4 6 200) = Dbl.fin 0 ∧ lapv (constImage 4 6 200) = Dbl.fin 0 ∧
      teng (constImage 4 6 200) 3 = Dbl.fin 0 :=
  ⟨fun _ _ _ _ _ => rfl, constant_image_scores_zero (constImage 4 6 200) 200 (fun _ _ _ _ _ => rfl)⟩

/-! ## Colour images -/

/-- C10: two images of the same size whose channel-0 samples are identical (the other
channels arbitrary) get the same `lapm`, `lapv`, `teng(., 3)` and `glvn` score. -/
theorem scores_depend_on_channel0 (A B : Mat) (hrows : A.rows = B.rows)
    (hcols : A.cols = B.cols)
    (h : ∀ r c, r < A.rows → c < A.cols → A.data r c 0 = B.data r c 0) :
    lapm A = lapm B ∧ lapv A = lapv B ∧ teng A 3 = teng B 3 ∧ glvn A = glvn B :=
  ⟨lapm_congr A B hrows hcols h, lapv_congr A B hrows hcols h,
    teng_congr A B 3 hrows hcols h, glvn_congr A B hrows hcols h⟩

/-- Witness for C10: two 2x2 colour images with the same channel 0 and different other
channels. -/
theorem scores_depend_on_channel0_witness :
    (rampImage 7).rows = (rampImage 200).rows ∧ (rampImage 7).cols = (rampImage 200).cols ∧
      (rampImage 7).data 0 0 1 ≠ (rampImage 200).data 0 0 1 ∧
      lapm (rampImage 7) = lapm (rampImage 200) ∧ lapv (rampImage 7) = lapv (rampImage 200) ∧
      teng (rampImage 7) 3 = teng (rampImage 200) 3 ∧ glvn (rampImage 7) = glvn (rampImage 200) :=
  ⟨rfl, rfl, by decide!,
    scores_depend_on_channel0 (rampImage 7) (rampImage 200) rfl rfl (fun _ _ _ _ => rfl)⟩

/-! ## GLVN -/

theorem glvn_zero_image (src : Mat)
    (h : ∀ r c, r < src.rows → c < src.cols → src.data r c 0 = 0) : glvn src = Dbl.nan := by
  simp [glvn, meanStdDev_zero src 0 h, Dbl.div]

theorem blackImage_decoded : Mat.isDecoded8U blackImage :=
  ⟨rfl, by decide, by decide, fun _ _ _ => ⟨0, by decide, by simp [blackImage, constImage]⟩⟩

theorem grayImage_decoded : Mat.isDecoded8U grayImage :=
  ⟨rfl, by decide, by decide, fun _ _ _ => ⟨128, by decide, by simp [grayImage, constImage]⟩⟩

theorem glvn_blackImage : glvn blackImage = Dbl.nan :=
  glvn_zero_image blackImage (fun _ _ _ _ => rfl)

theorem glvn_grayImage : glvn grayImage = Dbl.fin 0 := by decide!

/-- C4, the code at the failing input: for the pure-black 10x10 image, a well-formed decoded
8-bit image, `glvn` returns NaN; the driver appends that NaN to `table_nv`, passes it to the
sort, and prints it in the report. -/
theorem glvn_black_image_nan :
    Mat.isDecoded8U blackImage ∧ glvn blackImage = Dbl.nan ∧
      (∃ tb out, loop [⟨"black.png", blackImage⟩] ⟨[], [], [], []⟩ [] = Except.ok (tb, out) ∧
        tb.table_nv = [("black.png", Dbl.nan)] ∧
        tb.sortStep.table_nv = [("black.png", Dbl.nan)]) ∧
      ∃ r, main [⟨"black.png", blackImage⟩] = some r ∧ r.exitCode = 0 ∧
        Line.ranked "black.png" "(glnv)" Dbl.nan ∈ r.out := by
  have hdec : ∀ e ∈ [(⟨"black.png", blackImage⟩ : DirEntry)], e.img.empty = false := by
    intro e he
    rw [List.mem_singleton.mp he]
    rfl
  have hnv : (tablesOf [⟨"black.png", blackImage⟩]).sortStep.table_nv
      = [("black.png", Dbl.nan)] := by
    simp [tablesOf, Tables.sortStep, glvn_blackImage, stdSort, insertBy]
  refine ⟨blackImage_decoded, glvn_blackImage, ?_, ?_⟩
  · refine ⟨_, _, loop_all_decode _ hdec, ?_, hnv⟩
    simp [tablesOf, glvn_blackImage]
  · obtain ⟨report, _, hmain, hrows⟩ := main_all_decode _ hdec
    obtain ⟨a, b, c, d, _, _, _, hd, hr⟩ := hrows 0 (by simp)
    rw [hnv] at hd
    have hd2 : d = ("black.png", Dbl.nan) := by simpa using hd.symm
    refine ⟨_, hmain, rfl, ?_⟩
    have hmem : rowLines a b c d ∈ report := List.getElem?_mem hr
    have hline : Line.ranked "black.png" "(glnv)" Dbl.nan ∈ rowLines a b c d := by
      simp [rowLines, hd2]
    simp only [List.mem_append, List.mem_flatten]
    exact Or.inr ⟨_, hmem, hline⟩

/-! ## The sort step -/

theorem sortStep_ascending_of_no_nan (dir : List DirEntry) :
    ascending (tablesOf dir).sortStep.table_ml ∧ ascending (tablesOf dir).sortStep.table_vl ∧
      ascending (tablesOf dir).sortStep.table_t ∧
      ((∀ e ∈ dir, (glvn e.img).isNaN = false) → ascending (tablesOf dir).sortStep.table_nv) := by
  refine ⟨?_, ?_, ?_, ?_⟩
  · apply stdSort_ascending
    intro y hy
    obtain ⟨e, _, rfl⟩ := List.mem_map.mp hy
    rfl
  · apply stdSort_ascending
    intro y hy
    obtain ⟨e, _, rfl⟩ := List.mem_map.mp hy
    rfl
  · apply stdSort_ascending
    intro y hy
    obtain ⟨e, _, rfl⟩ := List.mem_map.mp hy
    rfl
  · intro hnan
    apply stdSort_ascending
    intro y hy
    obtain ⟨e, he, rfl⟩ := List.mem_map.mp hy
    exact hnan e he

theorem not_ascending_of_nan_pair (p q : String) (x : Dbl) (t : List Entry)
    (h : t.Perm [(p, Dbl.nan), (q, x)]) : ¬ ascending t := by
  intro hasc
  have hlen : t.length = 2 := h.length_eq
  have hmem : (p, Dbl.nan) ∈ t := h.mem_iff.mpr (List.mem_cons_self _ _)
  match t, hlen, hmem, hasc with
  | [u, v], _, hmem, hasc =>
    have hle : Dbl.le u.2 v.2 = true := hasc 0 (by simp)
    rcases List.mem_cons.mp hmem with hu | hv
    · rw [← hu] at hle
      cases hv2 : v.2 <;> simp [hv2, Dbl.le] at hle
    · rw [← List.mem_singleton.mp hv] at hle
      cases hu2 : u.2 <;> simp [hu2, Dbl.le] at hle

/-- C1, the code at the failing input: for a directory holding the pure-black and the
solid-gray 10x10 image (both decode), the loop records the GLVN scores NaN and 0, and after
the sort step the GLVN sequence is not ascending; no arrangement of the recorded pairs is. -/
theorem sorted_glvn_not_ascending :
    (∀ e ∈ blackAndGray, e.img.empty = false ∧ Mat.isDecoded8U e.img) ∧
      ∃ tb out, loop blackAndGray ⟨[], [], [], []⟩ [] = Except.ok (tb, out) ∧
        tb.table_nv = [("black.png", Dbl.nan), ("gray.png", Dbl.fin 0)] ∧
        ¬ ascending tb.sortStep.table_nv ∧
        ∀ t : List Entry, t.Perm tb.table_nv → ¬ ascending t := by
  have hdec : ∀ e ∈ blackAndGray, e.img.empty = false ∧ Mat.isDecoded8U e.img := by
    intro e he
    simp only [blackAndGray, List.mem_cons, List.mem_singleton, List.not_mem_nil, or_false] at he
    rcases he with rfl | rfl
    · exact ⟨rfl, blackImage_decoded⟩
    · exact ⟨rfl, grayImage_decoded⟩
  have hnv : (tablesOf blackAndGray).table_nv
      = [("black.png", Dbl.nan), ("gray.png", Dbl.fin 0)] := by
    simp [tablesOf, blackAndGray, glvn_blackImage, glvn_grayImage]
  refine ⟨hdec, _, _, loop_all_decode _ (fun e he => (hdec e he).1), hnv, ?_, ?_⟩
  · apply not_ascending_of_nan_pair "black.png" "gray.png" (Dbl.fin 0)
    rw [← hnv]
    exact stdSort_perm sortValue _
  · intro t ht
    rw [hnv] at ht
    exact not_ascending_of_nan_pair _ _ _ t ht

/-! ## Exit status -/

/-- C7: the driver returns exit status 1 exactly when some entry fails to decode and 0
otherwise, in particular 0 with an empty report for an empty directory; when an entry fails
its output ends with the message for the first failing entry: only the entries before it
are scored and no report is printed. -/
theorem main_exit_status (dir : List DirEntry) :
    (∃ r, main dir = some r ∧ (r.exitCode = 1 ↔ ∃ e ∈ dir, e.img.empty = true) ∧
        ((¬ ∃ e ∈ dir, e.img.empty = true) → r.exitCode = 0)) ∧
      main [] = some ⟨0, [Line.heading]⟩ ∧
      ∀ pre e post, dir = pre ++ e :: post → (∀ x ∈ pre, x.img.empty = false) →
        e.img.empty = true →
        main dir = some ⟨1, progressLines pre ++ [Line.path e.path, Line.couldNotRead e.path]⟩ := by
  refine ⟨?_, rfl, ?_⟩
  · by_cases hany : dir.any (fun e => e.img.empty) = true
    · obtain ⟨pre, e, post, hd, hp, he⟩ := exists_first_empty dir hany
      refine ⟨_, by rw [hd]; exact main_first_failure pre e post hp he, ?_, ?_⟩
      · exact ⟨fun _ => ⟨e, by simp [hd], he⟩, fun _ => rfl⟩
      · intro hno
        exact absurd ⟨e, by simp [hd], he⟩ hno
    · have hall := all_decode_of_not_any dir (by simpa using hany)
      obtain ⟨report, _, hmain, _⟩ := main_all_decode dir hall
      refine ⟨_, hmain, ?_, fun _ => rfl⟩
      constructor
      · intro h10
        simp at h10
      · rintro ⟨e, he, hempty⟩
        rw [hall e he] at hempty
        exact absurd hempty Bool.false_ne_true
  · intro pre e post hd hp he
    rw [hd]
    exact main_first_failure pre e post hp he

/-- Witness for C7: a directory of three entries whose second entry does not decode. -/
theorem main_exit_status_witness :
    main brokenSecond = some ⟨1, progressLines [⟨"a.png", grayImage⟩] ++
      [Line.path "notes.txt", Line.couldNotRead "notes.txt"]⟩ :=
  (main_exit_status brokenSecond).2.2 [⟨"a.png", grayImage⟩]
    ⟨"notes.txt", ⟨0, 0, 3, fun _ _ _ => 0⟩⟩ [⟨"c.png", blackImage⟩] rfl
    (fun x hx => by rw [List.mem_singleton.mp hx]; rfl) rfl

/-! ## The report -/

/-- C8: for every list of N entries that all decode, the loop records one (path, score)
pair per entry and measure; each sorted sequence is a permutation of the recorded one and
has length N; the report has N rows, and row `i` is made of element `i` of the sorted LAPM,
LAPV, TENG and GLVN sequences, in that order, every read being in bounds. -/
theorem report_rows (dir : List DirEntry) (h : ∀ e ∈ dir, e.img.empty = false) :
    loop dir ⟨[], [], [], []⟩ [] = Except.ok (tablesOf dir, progressLines dir) ∧
      ((tablesOf dir).sortStep.table_ml.Perm (dir.map fun e => (e.path, lapm e.img)) ∧
        (tablesOf dir).sortStep.table_vl.Perm (dir.map fun e => (e.path, lapv e.img)) ∧
        (tablesOf dir).sortStep.table_t.Perm (dir.map fun e => (e.path, teng e.img 3)) ∧
        (tablesOf dir).sortStep.table_nv.Perm (dir.map fun e => (e.path, glvn e.img))) ∧
      ((tablesOf dir).sortStep.table_ml.length = dir.length ∧
        (tablesOf dir).sortStep.table_vl.length = dir.length ∧
        (tablesOf dir).sortStep.table_t.length = dir.length ∧
        (tablesOf dir).sortStep.table_nv.length = dir.length) ∧
      ∃ report : List (List Line), report.length = dir.length ∧
        main dir = some ⟨0, progressLines dir ++ [Line.heading] ++ report.flatten⟩ ∧
        ∀ i, i < dir.length → ∃ a b c d,
          (tablesOf dir).sortStep.table_ml[i]? = some a ∧
          (tablesOf dir).sortStep.table_vl[i]? = some b ∧
          (tablesOf dir).sortStep.table_t[i]? = some c ∧
          (tablesOf dir).sortStep.table_nv[i]? = some d ∧
          report[i]? = some (rowLines a b c d) :=
  ⟨loop_all_decode dir h,
    ⟨stdSort_perm sortValue _, stdSort_perm sortValue _, stdSort_perm sortValue _,
      stdSort_perm sortValue _⟩,
    tablesOf_lengths dir, main_all_decode dir h⟩

/-- Witness for C8: a directory of two images that both decode. -/
theorem report_rows_witness :
    (∀ e ∈ grayAndRamp, e.img.empty = false) ∧
      ∃ report : List (List Line), report.length = grayAndRamp.length ∧
        main grayAndRamp =
          some ⟨0, progressLines grayAndRamp ++ [Line.heading] ++ report.flatten⟩ :=
  have hdec : ∀ e ∈ grayAndRamp, e.img.empty = false := by decide
  ⟨hdec, (report_rows grayAndRamp hdec).2.2.2.imp (fun _ hr => ⟨hr.1, hr.2.1⟩)⟩

/-! ## Smoothing and LAPV -/

theorem corrFrom_lin (k : List ℚ) (a b : ℚ) (f g : Int → ℚ) (p : Int) :
    corrFrom k (fun x => a * f x + b * g x) p = a * corrFrom k f p + b * corrFrom k g p := by
  induction k generalizing p with
  | nil => simp [corrFrom]
  | cons w ws ih =>
    simp only [corrFrom, ih]
    ring

theorem corrRowsFrom_lin (k : List (List ℚ)) (a b : ℚ) (f g : Int → Int → ℚ) (y x : Int) :
    corrRowsFrom k (fun y x => a * f y x + b * g y x) y x
      = a * corrRowsFrom k f y x + b * corrRowsFrom k g y x := by
  induction k generalizing y with
  | nil => simp [corrRowsFrom]
  | cons kr krs ih =>
    simp only [corrRowsFrom, corr, ih, corrFrom_lin]
    ring

theorem border_lin (S P Q : Mat) (a b : ℚ) (ch : Nat) (hPr : P.rows = S.rows)
    (hPc : P.cols = S.cols) (hQr : Q.rows = S.rows) (hQc : Q.cols = S.cols)
    (h : ∀ r c, S.data r c ch = a * P.data r c ch + b * Q.data r c ch) :
    S.border ch = fun y x => a * P.border ch y x + b * Q.border ch y x := by
  funext y x
  simp only [Mat.border, hPr, hPc, hQr, hQc, h]

theorem sepFilter2D_lin (S P Q : Mat) (a b : ℚ) (ch : Nat) (kx ky : List ℚ)
    (hPr : P.rows = S.rows) (hPc : P.cols = S.cols) (hQr : Q.rows = S.rows)
    (hQc : Q.cols = S.cols)
    (h : ∀ r c, S.data r c ch = a * P.data r c ch + b * Q.data r c ch) (r c : Nat) :
    (sepFilter2D S kx ky).data r c ch
      = a * (sepFilter2D P kx ky).data r c ch + b * (sepFilter2D Q kx ky).data r c ch := by
  simp only [sepFilter2D, border_lin S P Q a b ch hPr hPc hQr hQc h, corr, corrFrom_lin]

theorem Laplacian_lin (S P Q : Mat) (a b : ℚ) (ch : Nat)
    (hPr : P.rows = S.rows) (hPc : P.cols = S.cols) (hQr : Q.rows = S.rows)
    (hQc : Q.cols = S.cols)
    (h : ∀ r c, S.data r c ch = a * P.data r c ch + b * Q.data r c ch) (r c : Nat) :
    (Laplacian S).data r c ch
      = a * (Laplacian P).data r c ch + b * (Laplacian Q).data r c ch := by
  simp only [Laplacian, filter2D, border_lin S P Q a b ch hPr hPc hQr hQc h, corrRowsFrom_lin]

theorem checkerboard_split (a b : ℚ) (r c ch : Nat) :
    (checkerboard a b).data r c ch
      = a * (checkerboard 1 0).data r c ch + b * (checkerboard 0 1).data r c ch := by
  simp only [checkerboard]
  split_ifs <;> ring

theorem checkerboard_sepFilter2D (a b : ℚ) (kx ky : List ℚ) (r c : Nat) :
    (sepFilter2D (checkerboard a b) kx ky).data r c 0
      = a * (sepFilter2D (checkerboard 1 0) kx ky).data r c 0
        + b * (sepFilter2D (checkerboard 0 1) kx ky).data r c 0 :=
  sepFilter2D_lin (checkerboard a b) (checkerboard 1 0) (checkerboard 0 1) a b 0 kx ky
    rfl rfl rfl rfl (fun r c => checkerboard_split a b r c 0) r c

theorem checkerboard_Laplacian (a b : ℚ) (r c : Nat) (hr : r < 10) (hc : c < 10) :
    (Laplacian (checkerboard a b)).data r c 0
      = (a - b) * (if (r + c) % 2 = 0 then -4 else 4) := by
  have h10 : ∀ r, r < 10 → ∀ c, c < 10 →
      (Laplacian (checkerboard 1 0)).data r c 0 = if (r + c) % 2 = 0 then -4 else 4 := by
    decide!
  have h01 : ∀ r, r < 10 → ∀ c, c < 10 →
      (Laplacian (checkerboard 0 1)).data r c 0 = if (r + c) % 2 = 0 then 4 else -4 := by
    decide!
  rw [Laplacian_lin (checkerboard a b) (checkerboard 1 0) (checkerboard 0 1) a b 0
      rfl rfl rfl rfl (fun r c => checkerboard_split a b r c 0) r c,
    h10 r hr c hc, h01 r hr c hc]
  split_ifs <;> ring

theorem lapm_checkerboard (a b : ℚ) : lapm (checkerboard a b) = Dbl.fin 0 := by
  have hx : ∀ r, r < 10 → ∀ c, c < 10 →
      (sepFilter2D (checkerboard 1 0) [-1, 2, -1] getGaussianKernel3).data r c 0 = 0 ∧
      (sepFilter2D (checkerboard 0 1) [-1, 2, -1] getGaussianKernel3).data r c 0 = 0 ∧
      (sepFilter2D (checkerboard 1 0) getGaussianKernel3 [-1, 2, -1]).data r c 0 = 0 ∧
      (sepFilter2D (checkerboard 0 1) getGaussianKernel3 [-1, 2, -1]).data r c 0 = 0 := by
    decide!
  unfold lapm
  simp only
  congr 1
  apply mean_eq_zero
  intro r c hr hc
  obtain ⟨h1, h2, h3, h4⟩ := hx r hr c hc
  simp only [Mat.add, Mat.abs, checkerboard_sepFilter2D a b, h1, h2, h3, h4]
  norm_num

theorem teng_checkerboard (a b : ℚ) : teng (checkerboard a b) 3 = Dbl.fin 0 := by
  have hx : ∀ r, r < 10 → ∀ c, c < 10 →
      (sepFilter2D (checkerboard 1 0) [-1, 0, 1] [1, 2, 1]).data r c 0 = 0 ∧
      (sepFilter2D (checkerboard 0 1) [-1, 0, 1] [1, 2, 1]).data r c 0 = 0 ∧
      (sepFilter2D (checkerboard 1 0) [1, 2, 1] [-1, 0, 1]).data r c 0 = 0 ∧
      (sepFilter2D (checkerboard 0 1) [1, 2, 1] [-1, 0, 1]).data r c 0 = 0 := by
    decide!
  unfold teng
  simp only
  congr 1
  apply mean_eq_zero
  intro r c hr hc
  obtain ⟨h1, h2, h3, h4⟩ := hx r hr c hc
  simp only [Mat.add, Mat.mul, Sobel, sobelKernel_one_three, sobelKernel_zero_three,
    checkerboard_sepFilter2D a b, h1, h2, h3, h4]
  norm_num

theorem lapv_checkerboard (a b : ℚ) :
    lapv (checkerboard a b) = Dbl.fin (16 * (a - b) ^ 2) := by
  have hsum : (Laplacian (checkerboard a b)).sumOver 0 id
      = ∑ r in Finset.range 10, ∑ c in Finset.range 10,
          (a - b) * (if (r + c) % 2 = 0 then (-4 : ℚ) else 4) := by
    unfold Mat.sumOver
    refine Finset.sum_congr rfl (fun r hr => Finset.sum_congr rfl (fun c hc => ?_))
    exact checkerboard_Laplacian a b r c (Finset.mem_range.mp hr) (Finset.mem_range.mp hc)
  have hsq : (Laplacian (checkerboard a b)).sumOver 0 (fun x => x * x)
      = ∑ r in Finset.range 10, ∑ c in Finset.range 10,
          ((a - b) * (if (r + c) % 2 = 0 then (-4 : ℚ) else 4))
            * ((a - b) * (if (r + c) % 2 = 0 then (-4 : ℚ) else 4)) := by
    unfold Mat.sumOver
    refine Finset.sum_congr rfl (fun r hr => Finset.sum_congr rfl (fun c hc => ?_))
    rw [checkerboard_Laplacian a b r c (Finset.mem_range.mp hr) (Finset.mem_range.mp hc)]
  have htot : (Laplacian (checkerboard a b)).total = 100 := by
    simp [Mat.total, Laplacian, filter2D, checkerboard]
  unfold lapv
  simp only [meanStdDev, hsum, hsq, htot]
  congr 1
  simp only [Finset.sum_range_succ, Finset.sum_range_zero]
  norm_num
  have h0 : 0 ≤ 16 * (a - b) ^ 2 := by positivity
  rw [max_eq_left]
  · ring
  · nlinarith [h0]

/-! ## The gray image and the checkerboard -/

theorem checkerboard_decoded : Mat.isDecoded8U (checkerboard 0 255) := by
  refine ⟨rfl, by decide, by decide, fun r c _ => ?_⟩
  by_cases h : (r + c) % 2 = 0
  · exact ⟨0, by decide, by simp [checkerboard, h]⟩
  · exact ⟨255, by decide, by simp [checkerboard, h]⟩

/-- C3, counterexample: for the directory holding the solid-gray 10x10 image and the 10x10
checkerboard of the two distinct values 0 and 255, the recorded LAPM and TENG scores of the
checkerboard are 0, not strictly greater than 0. -/
theorem checkerboard_counterexample :
    (0 : ℚ) ≠ 255 ∧ (∀ e ∈ grayAndChecker, e.img.empty = false ∧ Mat.isDecoded8U e.img) ∧
      ∃ tb out, loop grayAndChecker ⟨[], [], [], []⟩ [] = Except.ok (tb, out) ∧
        tb.table_ml = [("gray.png", Dbl.fin 0), ("checker.png", Dbl.fin 0)] ∧
        tb.table_t = [("gray.png", Dbl.fin 0), ("checker.png", Dbl.fin 0)] ∧
        Dbl.lt (Dbl.fin 0) (lapm (checkerboard 0 255)) = false ∧
        Dbl.lt (Dbl.fin 0) (teng (checkerboard 0 255) 3) = false := by
  have hdec : ∀ e ∈ grayAndChecker, e.img.empty = false ∧ Mat.isDecoded8U e.img := by
    intro e he
    simp only [grayAndChecker, List.mem_cons, List.mem_singleton, List.not_mem_nil, or_false] at he
    rcases he with rfl | rfl
    · exact ⟨rfl, grayImage_decoded⟩
    · exact ⟨rfl, checkerboard_decoded⟩
  have hg := constant_image_scores_zero grayImage 128 (fun _ _ _ _ _ => rfl)
  refine ⟨by norm_num, hdec, _, _, loop_all_decode _ (fun e he => (hdec e he).1), ?_, ?_, ?_, ?_⟩
  · simp [tablesOf, grayAndChecker, hg.1, lapm_checkerboard]
  · simp [tablesOf, grayAndChecker, hg.2.2, teng_checkerboard]
  · simp [lapm_checkerboard, Dbl.lt]
  · simp [teng_checkerboard, Dbl.lt]

/-- C3, amended: running the driver on a directory holding one solid-gray 10x10 image and
one 10x10 checkerboard of two distinct gray levels, in either order, gives LAPM, LAPV and
TENG equal to 0 for the gray image; for the checkerboard LAPM and TENG are 0 and LAPV is
strictly greater than 0; and the gray image is the entry at index 0 of the sorted LAPV
sequence. -/
theorem gray_and_checkerboard (p q : String) (g a b : ℚ) (hab : a ≠ b) (dir : List DirEntry)
    (hdir : dir = [⟨p, constImage 10 10 g⟩, ⟨q, checkerboard a b⟩] ∨
      dir = [⟨q, checkerboard a b⟩, ⟨p, constImage 10 10 g⟩]) :
    lapm (constImage 10 10 g) = Dbl.fin 0 ∧ lapv (constImage 10 10 g) = Dbl.fin 0 ∧
      teng (constImage 10 10 g) 3 = Dbl.fin 0 ∧
      lapm (checkerboard a b) = Dbl.fin 0 ∧ teng (checkerboard a b) 3 = Dbl.fin 0 ∧
      Dbl.lt (Dbl.fin 0) (lapv (checkerboard a b)) = true ∧
      ∃ tb out, loop dir ⟨[], [], [], []⟩ [] = Except.ok (tb, out) ∧
        tb.sortStep.table_vl[0]? = some (p, Dbl.fin 0) ∧
        tb.sortStep.table_vl = [(p, Dbl.fin 0), (q, lapv (checkerboard a b))] := by
  have hg := constant_image_scores_zero (constImage 10 10 g) g (fun _ _ _ _ _ => rfl)
  have hpos : (0 : ℚ) < 16 * (a - b) ^ 2 := by
    have : a - b ≠ 0 := sub_ne_zero.mpr hab
    positivity
  have hlt : Dbl.lt (Dbl.fin 0) (lapv (checkerboard a b)) = true := by
    simp [lapv_checkerboard, Dbl.lt, hpos]
  have hdec : ∀ e ∈ dir, e.img.empty = false := by
    intro e he
    rcases hdir with rfl | rfl
    · simp only [List.mem_cons, List.mem_singleton, List.not_mem_nil, or_false] at he
      rcases he with rfl | rfl <;> rfl
    · simp only [List.mem_cons, List.mem_singleton, List.not_mem_nil, or_false] at he
      rcases he with rfl | rfl <;> rfl
  have hsorted : (tablesOf dir).sortStep.table_vl
      = [(p, Dbl.fin 0), (q, lapv (checkerboard a b))] := by
    rcases hdir with rfl | rfl
    · simp [tablesOf, Tables.sortStep, stdSort, insertBy, sortValue, hg.2.1,
        lapv_checkerboard, Dbl.lt, hpos]
    · simp [tablesOf, Tables.sortStep, stdSort, insertBy, sortValue, hg.2.1,
        lapv_checkerboard, Dbl.lt, not_lt.mpr (le_of_lt hpos)]
  refine ⟨hg.1, hg.2.1, hg.2.2, lapm_checkerboard a b, teng_checkerboard a b, hlt,
    _, _, loop_all_decode dir hdec, ?_, hsorted⟩
  rw [hsorted]
  rfl

/-- Witness for the amended C3: gray level 128 and the checkerboard of 0 and 255. -/
theorem gray_and_checkerboard_witness :
    (0 : ℚ) ≠ 255 ∧ Dbl.lt (Dbl.fin 0) (lapv (checkerboard 0 255)) = true ∧
      ∃ tb out, loop grayAndChecker ⟨[], [], [], []⟩ [] = Except.ok (tb, out) ∧
        tb.sortStep.table_vl[0]? = some ("gray.png", Dbl.fin 0) :=
  have h := gray_and_checkerboard "gray.png" "checker.png" 128 0 255 (by norm_num)
    grayAndChecker (Or.inl rfl)
  ⟨by norm_num, h.2.2.2.2.2.1,
    h.2.2.2.2.2.2.imp (fun _ h1 => h1.imp (fun _ h2 => ⟨h2.1, h2.2.1⟩))⟩

/-! ## GLVN on decoded images -/

/-- Within the Gaussian family too the score can grow with the width.  On the one-row
ramp, `lapv` after smoothing with the 3-tap Gaussian kernel is larger than after smoothing with the 1-tap kernel `[1]`, which leaves the image unchanged. -/
theorem lapv_gaussian_blur_increase :
    lapv (smooth smoothRamp [1]) = Dbl.fin (201 / 4) ∧
      lapv (smooth smoothRamp getGaussianKernel3) = Dbl.fin (3225 / 64) ∧
      Dbl.lt (lapv (smooth smoothRamp [1])) (lapv (smooth smoothRamp getGaussianKernel3))
        = true := by
  decide!

end Clarity
